import Mathlib

/-!
Verification of the release-announcer core against its specification.

The JavaScript sources are embedded shallowly: JS strings are Lean `String`s
(a structure over `List Char`), JS string primitives (`trim`, `split`,
`substring`, `parseInt`, first-occurrence `replace`, the two regular
expressions used by the bot) are translated into executable Lean functions,
and JS numbers that can be `NaN` are modelled as `Option Int`.
-/

/-- JavaScript whitespace test (ASCII subset) used by `trim`, `\s` and `parseInt`. -/
def isJsWs (c : Char) : Bool := c.isWhitespace

/-- Character-list core of JS `String.prototype.trim`. -/
def jsTrimL (l : List Char) : List Char :=
  ((l.dropWhile isJsWs).reverse.dropWhile isJsWs).reverse

/-- JS `String.prototype.trim`: drop whitespace from both ends of the string. -/
def jsTrim (s : String) : String := ⟨jsTrimL s.data⟩

/-- JS `String.prototype.substring(0, n)`; a negative bound clamps to `0`,
exactly as `Nat` subtraction does at the call sites below. -/
def jsTake (s : String) (n : Nat) : String := ⟨s.data.take n⟩

/-- JS `String.prototype.includes(c)` for a single character. -/
def jsIncludesChar (s : String) (c : Char) : Bool := s.data.any (· = c)

/-- Auxiliary scanner for `jsSplit`: accumulates the current field in reverse. -/
def jsSplitAux (sep : Char) : List Char → List Char → List (List Char)
  | [], acc => [acc.reverse]
  | c :: rest, acc =>
      if c = sep then acc.reverse :: jsSplitAux sep rest []
      else jsSplitAux sep rest (c :: acc)

/-- JS `String.prototype.split(sep)` for a one-character separator. -/
def jsSplit (s : String) (sep : Char) : List String :=
  (jsSplitAux sep s.data []).map (fun l => ⟨l⟩)

/-- Numeric value of a run of decimal digit characters. -/
def digitsVal (l : List Char) : Nat :=
  l.foldl (fun a c => 10 * a + (c.toNat - '0'.toNat)) 0

/-- JS `parseInt(s, 10)`: skip leading whitespace, allow one sign, then read a
nonempty run of decimal digits; `none` models `NaN`. -/
def parseIntDec (s : String) : Option Int :=
  match s.data.dropWhile isJsWs with
  | '-' :: rest =>
      let ds := rest.takeWhile Char.isDigit
      if ds.isEmpty then none else some (-(digitsVal ds : Int))
  | '+' :: rest =>
      let ds := rest.takeWhile Char.isDigit
      if ds.isEmpty then none else some (digitsVal ds)
  | l =>
      let ds := l.takeWhile Char.isDigit
      if ds.isEmpty then none else some (digitsVal ds)

/-- JS number-to-string restricted to the integer-or-`NaN` values that occur in
the resolver (`none` prints as `"NaN"`). -/
def jsNumToString : Option Int → String
  | none => "NaN"
  | some n => toString n

/-- The two failure conditions raised by the release resolver. -/
inductive ReleaseError where
  | invalidFormat
  | underflow
  deriving DecidableEq, Repr

/-- Boolean success test on resolver results. -/
def isOkB : Except ReleaseError String → Bool
  | .ok _ => true
  | .error _ => false

/-- `getPreviousRelease` from `src/api/slack.js` lines 24-49.  The dotted branch
falls through on a non-positive or `NaN` minor segment and returns
`(major - 1).toString()`, which is `"NaN"` when the major segment is `NaN`. -/
def getPreviousRelease (releaseNumber : String) : Except ReleaseError String :=
  if jsIncludesChar releaseNumber '.' then
    let parts := jsSplit releaseNumber '.'
    let fallback : Except ReleaseError String :=
      .ok (jsNumToString ((parseIntDec (parts.headD "")).map (· - 1)))
    if parts.length > 1 then
      match parseIntDec (parts.getD 1 "") with
      | some minorVersion =>
          if minorVersion > 0 then
            .ok (parts.headD "" ++ "." ++ toString (minorVersion - 1))
          else fallback
      | none => fallback
    else fallback
  else
    match parseIntDec releaseNumber with
    | none => .error .invalidFormat
    | some currentNumber =>
        if currentNumber ≤ 1 then .error .underflow
        else .ok (toString (currentNumber - 1))

/-- Claim C2 (confirmed): the release resolver boundary: `"1"` underflows, `"2"`
gives `"1"`, `"2.0"` gives `"1"` (second segment dropped), `"2.1.0"` gives
`"2.0"`, `"abc"` is an invalid format; and on every non-dotted id it fails with
`invalidFormat` exactly when `parseInt` yields `NaN`, and with `underflow`
whenever the parsed value is `≤ 1`. -/
theorem c2_previousRelease_boundary :
    getPreviousRelease "1" = .error .underflow ∧
    getPreviousRelease "2" = .ok "1" ∧
    getPreviousRelease "2.0" = .ok "1" ∧
    getPreviousRelease "2.1.0" = .ok "2.0" ∧
    getPreviousRelease "abc" = .error .invalidFormat ∧
    (∀ s, jsIncludesChar s '.' = false → parseIntDec s = none →
      getPreviousRelease s = .error .invalidFormat) ∧
    (∀ s n, jsIncludesChar s '.' = false → parseIntDec s = some n → n ≤ 1 →
      getPreviousRelease s = .error .underflow) := by
  refine ⟨rfl, rfl, rfl, rfl, rfl, ?_, ?_⟩
  · intro s h hp
    simp [getPreviousRelease, h, hp]
  · intro s n h hp hle
    simp [getPreviousRelease, h, hp, hle]

/-- Witness for C2: the general non-dotted clauses applied at `"xyz"` and `"0"`. -/
theorem c2_witness :
    getPreviousRelease "xyz" = .error .invalidFormat ∧
    getPreviousRelease "0" = .error .underflow :=
  ⟨c2_previousRelease_boundary.2.2.2.2.2.1 "xyz" (by decide) (by decide),
   c2_previousRelease_boundary.2.2.2.2.2.2 "0" 0 (by decide) (by decide) (by decide)⟩

/-- Claim C10 (confirmed): on every release id containing a dot the resolver
returns a string and never raises; non-numeric segments yield `"NaN"` and
`"1.0"` yields `"0"`. -/
theorem c10_dotted_never_fails :
    (∀ s, jsIncludesChar s '.' = true → isOkB (getPreviousRelease s) = true) ∧
    getPreviousRelease "a.b" = .ok "NaN" ∧
    getPreviousRelease "2.x" = .ok "1" ∧
    getPreviousRelease "1.0" = .ok "0" := by
  refine ⟨?_, rfl, rfl, rfl⟩
  intro s h
  simp only [getPreviousRelease, h, if_true]
  split
  · split
    · split <;> rfl
    · rfl
  · rfl

/-- Witness for C10: the never-fails clause applied at `"5.2"`. -/
theorem c10_witness : isOkB (getPreviousRelease "5.2") = true :=
  c10_dotted_never_fails.1 "5.2" (by decide)

/-- JS regex `\w`: ASCII letters, digits and underscore. -/
def isWordChar (c : Char) : Bool := c.isAlphanum || c = '_'

/-- JS `\b` between an optional previous character and the next character:
a boundary holds iff exactly one side is a word character (string start counts
as a non-word side). -/
def boundaryBefore (prev : Option Char) (c : Char) : Bool :=
  match prev with
  | none => isWordChar c
  | some p => isWordChar p != isWordChar c

/-- JS `\b` immediately after a digit: the next character must be absent or a
non-word character. -/
def boundaryAfterDigits : List Char → Bool
  | [] => true
  | c :: _ => !isWordChar c

/-- Case-insensitive literal prefix match (the `i` flag): on success returns the
actual characters taken from the text (original case) and the remainder. -/
def stripCI : List Char → List Char → Option (List Char × List Char)
  | [], l => some ([], l)
  | _ :: _, [] => none
  | p :: ps, c :: cs =>
      if p.toLower = c.toLower then
        (stripCI ps cs).map (fun t => (c :: t.1, t.2))
      else none

/-- Try the body of ``new RegExp(`\b${PROJ}-\d+\b`, 'gi')`` at the current
position: the project key (case-insensitive), a dash, a maximal nonempty digit
run, then a trailing word boundary.  Returns the matched text and remainder. -/
def tryTicketAt (proj l : List Char) : Option (List Char × List Char) :=
  match stripCI proj l with
  | none => none
  | some (taken, rest1) =>
      match rest1 with
      | '-' :: rest2 =>
          let ds := rest2.takeWhile Char.isDigit
          if ds.isEmpty then none
          else
            let rem := rest2.drop ds.length
            if boundaryAfterDigits rem then some (taken ++ '-' :: ds, rem)
            else none
      | _ => none

/-- Global scan for the ticket regex, one character at a time, carrying the
previous character for the leading `\b`; fuel bounds the recursion and is
always supplied as more than the text length. -/
def jiraScanAux (proj : List Char) : Nat → Option Char → List Char → List (List Char)
  | 0, _, _ => []
  | _ + 1, _, [] => []
  | fuel + 1, prev, c :: rest =>
      match tryTicketAt proj (c :: rest) with
      | some (m, rem) =>
          if boundaryBefore prev c then
            m :: jiraScanAux proj fuel (some (m.getLastD c)) rem
          else
            jiraScanAux proj fuel (some c) rest
      | none => jiraScanAux proj fuel (some c) rest

/-- `allText.match(jiraRegex)` from `src/api/slack.js` line 85/98: every match
of the word-bounded, case-insensitive `PROJ-\d+` pattern, in scan order, with
the original casing preserved (the empty list stands for JS `null`). -/
def jiraMatchList (proj text : String) : List String :=
  (jiraScanAux proj.data (text.data.length + 1) none text.data).map (fun l => ⟨l⟩)

/-- Global scan for `/#(\d+)/g`: a hash followed by a maximal nonempty digit run. -/
def ghScanAux : Nat → List Char → List (List Char)
  | 0, _ => []
  | _ + 1, [] => []
  | fuel + 1, c :: rest =>
      if c = '#' then
        let ds := rest.takeWhile Char.isDigit
        if ds.isEmpty then ghScanAux fuel rest
        else ('#' :: ds) :: ghScanAux fuel (rest.drop ds.length)
      else ghScanAux fuel rest

/-- `allText.match(githubRegex)` from `src/api/slack.js` lines 99-100. -/
def githubMatchList (text : String) : List String :=
  (ghScanAux (text.data.length + 1) text.data).map (fun l => ⟨l⟩)

/-- JS `String.prototype.toUpperCase` (ASCII). -/
def upperStr (s : String) : String := ⟨s.data.map Char.toUpper⟩

/-- First-occurrence replacement: JS `String.prototype.replace` with a plain
string pattern replaces only the leftmost occurrence. -/
def replaceFirstAux (pat rep : List Char) : List Char → List Char
  | [] => if pat.isEmpty then rep else []
  | c :: rest =>
      if pat.isPrefixOf (c :: rest) then rep ++ (c :: rest).drop pat.length
      else c :: replaceFirstAux pat rep rest

/-- JS `s.replace(pat, rep)` for a plain (non-regex) pattern. -/
def jsReplaceFirst (s pat rep : String) : String :=
  ⟨replaceFirstAux pat.data rep.data s.data⟩

/-- Substring-occurrence test (used to state when `jsReplaceFirst` is inert and
to model JS `String.prototype.includes`). -/
def occursIn (pat : List Char) : List Char → Bool
  | [] => pat.isEmpty
  | c :: rest => pat.isPrefixOf (c :: rest) || occursIn pat rest

/-- JS `s.includes(pat)`. -/
def jsIncludes (s pat : String) : Bool := occursIn pat.data s.data

/-- `githubMatches[0].replace('#', '')`: drop the leading hash of a match. -/
def stripHash (s : String) : String := jsReplaceFirst s "#" ""

/-- Character-list core of one `replace(/\s*\(#\d+\)\s*$/, '')` step: scanning
from the right, skip trailing whitespace, expect `)`, a nonempty digit run,
`#`, `(`, then skip the whitespace run before `(`; on any failure the input is
returned unchanged (the regex does not match). -/
def stripParenDecoL (l : List Char) : List Char :=
  match l.reverse.dropWhile isJsWs with
  | ')' :: r2 =>
      let ds := r2.takeWhile Char.isDigit
      if ds.isEmpty then l
      else
        match r2.drop ds.length with
        | '#' :: '(' :: r3 => (r3.dropWhile isJsWs).reverse
        | _ => l
  | _ => l

/-- One `replace(/\s*\(#\d+\)\s*$/, '')` step from `src/api/slack.js` line 106:
remove one trailing parenthesised issue decoration (with the whitespace run
before it and any trailing whitespace), if the string ends with one. -/
def stripParenDeco (s : String) : String := ⟨stripParenDecoL s.data⟩

/-- Character-list core of one `replace(/\s*#\d+\s*$/, '')` step. -/
def stripBareDecoL (l : List Char) : List Char :=
  let r1 := l.reverse.dropWhile isJsWs
  let ds := r1.takeWhile Char.isDigit
  if ds.isEmpty then l
  else
    match r1.drop ds.length with
    | '#' :: r2 => (r2.dropWhile isJsWs).reverse
    | _ => l

/-- One `replace(/\s*#\d+\s*$/, '')` step from `src/api/slack.js` line 106:
remove one trailing bare issue decoration, if the string ends with one. -/
def stripBareDeco (s : String) : String := ⟨stripBareDecoL s.data⟩

/-- `cleanTitle` from `src/api/slack.js` line 106/122: the paren form is
stripped first, then the bare form is stripped from the result. -/
def cleanTitle (t : String) : String := stripBareDeco (stripParenDeco t)

/-- A commit as consumed by the mapper (`commit.sha`, `commit.commit.message`). -/
structure Commit where
  sha : String
  message : String

/-- `commit.commit.message.split('\n')[0]`. -/
def commitTitleOf (message : String) : String := (jsSplit message '\n').headD ""

/-- `` `${commitTitle} ${commitMessage}` `` from `src/api/slack.js` line 97. -/
def allTextOf (message : String) : String := commitTitleOf message ++ " " ++ message

/-- The kind tag of a mapped change (`type` in `src/api/debug-channels.js`). -/
inductive ChangeKind where
  | jira
  | github
  | plain
  deriving DecidableEq, Repr

/-- The structured change entry built in `src/api/debug-channels.js` lines
207-260 (the same tie-break policy as the string builder in
`src/api/slack.js` lines 102-126). -/
structure ChangeEntry where
  kind : ChangeKind
  key : String
  summary : String
  url : Option String
  githubKey : Option String
  githubUrl : Option String
  deriving DecidableEq, Repr

/-- Per-commit mapper from `src/api/debug-channels.js` lines 196-260: a ticket
reference wins over an issue reference; with both present the first issue
reference is demoted to `githubKey`/`githubUrl`; with neither the commit is
kept as `plain` only when empty-commit filtering is disabled. -/
def changeEntryOf (jiraProject jiraServer owner repo : String)
    (keepUnreferenced : Bool) (c : Commit) : Option ChangeEntry :=
  let commitTitle := commitTitleOf c.message
  let allText := allTextOf c.message
  let jiraMatches := jiraMatchList jiraProject allText
  let githubMatches := githubMatchList allText
  match jiraMatches with
  | firstJira :: _ =>
      let firstJiraTicket := upperStr firstJira
      some
        { kind := .jira
          key := firstJiraTicket
          summary := cleanTitle commitTitle
          url := some (jiraServer ++ "/browse/" ++ firstJiraTicket)
          githubKey :=
            match githubMatches with
            | g :: _ => some (stripHash g)
            | [] => none
          githubUrl :=
            match githubMatches with
            | g :: _ =>
                some ("https://github.com/" ++ owner ++ "/" ++ repo ++ "/pull/" ++ stripHash g)
            | [] => none }
  | [] =>
      match githubMatches with
      | g :: _ =>
          some
            { kind := .github
              key := stripHash g
              summary := cleanTitle commitTitle
              url := some ("https://github.com/" ++ owner ++ "/" ++ repo ++ "/pull/" ++ stripHash g)
              githubKey := none
              githubUrl := none }
      | [] =>
          if keepUnreferenced then
            some
              { kind := .plain
                key := jsTake c.sha 7
                summary := commitTitle
                url := none
                githubKey := none
                githubUrl := none }
          else none

/-- Per-commit bullet line built by `src/api/slack.js` lines 102-127: `none`
when the commit has neither reference and is skipped. -/
def changeLineOf (jiraProject jiraServer owner repo : String) (c : Commit) :
    Option String :=
  let commitTitle := commitTitleOf c.message
  let allText := allTextOf c.message
  let jiraMatches := jiraMatchList jiraProject allText
  let githubMatches := githubMatchList allText
  match jiraMatches with
  | firstJira :: _ =>
      let firstJiraTicket := upperStr firstJira
      let base := "• <" ++ jiraServer ++ "/browse/" ++ firstJiraTicket ++ "|" ++
        cleanTitle commitTitle ++ ">"
      some
        (match githubMatches with
         | g :: _ =>
             base ++ " <https://github.com/" ++ owner ++ "/" ++ repo ++ "/pull/" ++
               stripHash g ++ "|(#" ++ stripHash g ++ ")>"
         | [] => base)
  | [] =>
      match githubMatches with
      | g :: _ =>
          some ("• " ++ cleanTitle commitTitle ++ " <https://github.com/" ++ owner ++ "/" ++
            repo ++ "/pull/" ++ stripHash g ++ "|(#" ++ stripHash g ++ ")>")
      | [] => none

/-- The commit loop of `src/api/slack.js` lines 84-128: `seen` models the
`processedCommits` set keyed by `commit.sha.substring(0, 7)`; duplicates are
skipped before any extraction happens. -/
def processCommitsLoop (jiraProject jiraServer owner repo : String) :
    List Commit → List String → List String
  | [], _ => []
  | c :: cs, seen =>
      let commitSha := jsTake c.sha 7
      if commitSha ∈ seen then
        processCommitsLoop jiraProject jiraServer owner repo cs seen
      else
        match changeLineOf jiraProject jiraServer owner repo c with
        | some line =>
            line :: processCommitsLoop jiraProject jiraServer owner repo cs (commitSha :: seen)
        | none => processCommitsLoop jiraProject jiraServer owner repo cs (commitSha :: seen)

/-- `releaseChanges` as accumulated over `comparison.commits`. -/
def processCommits (jiraProject jiraServer owner repo : String)
    (commits : List Commit) : List String :=
  processCommitsLoop jiraProject jiraServer owner repo commits []

/-- Keep only the first commit for each 7-character short id (relative to an
already-seen set): the list the loop effectively processes. -/
def dedupCommits : List Commit → List String → List Commit
  | [], _ => []
  | c :: cs, seen =>
      if jsTake c.sha 7 ∈ seen then dedupCommits cs seen
      else c :: dedupCommits cs (jsTake c.sha 7 :: seen)

/-- The spec's `extractReferences` read off the source: ticket matches from the
`gi` ticket regex (uppercased as in `src/api/debug-channels.js` line 223) and
issue numbers from `/#(\d+)/g` with the hash stripped as at every use site. -/
def extractReferences (ticketProjectKey text : String) : List String × List String :=
  ((jiraMatchList ticketProjectKey text).map upperStr,
   (githubMatchList text).map stripHash)

/-! General helper lemmas about the string model. -/

theorem strDataAppend (a b : String) : (a ++ b).data = a.data ++ b.data := by
  cases a
  cases b
  rfl

theorem strMkData (s : String) : (⟨s.data⟩ : String) = s := by
  cases s
  rfl

theorem dropWhile_of_takeWhile_nil {α : Type} {p : α → Bool} {l : List α}
    (h : l.takeWhile p = []) : l.dropWhile p = l := by
  cases l with
  | nil => rfl
  | cons a t =>
      rw [List.takeWhile_cons] at h
      rw [List.dropWhile_cons]
      by_cases hp : p a = true
      · simp [hp] at h
      · simp [hp]

theorem takeWhile_append_all {α : Type} {p : α → Bool} (xs : List α) (y : α)
    (ys : List α) (hall : ∀ a ∈ xs, p a = true) (hy : p y = false) :
    (xs ++ y :: ys).takeWhile p = xs := by
  induction xs with
  | nil => simp [List.takeWhile_cons, hy]
  | cons a t ih =>
      have ha := hall a (by simp)
      simp only [List.cons_append, List.takeWhile_cons, ha, if_true]
      rw [ih (fun b hb => hall b (by simp [hb]))]

theorem digit_not_ws {c : Char} (h : c.isDigit = true) : isJsWs c = false := by
  cases hw : isJsWs c with
  | false => rfl
  | true =>
      have hc : ((c = ' ' ∨ c = '\t') ∨ c = '\x0d') ∨ c = '\n' := by
        simpa [isJsWs, Char.isWhitespace] using hw
      rcases hc with ((rfl | rfl) | rfl) | rfl <;> exact absurd h (by decide)

/-- Claim C3 (confirmed): whenever a commit's combined title-plus-message text
matches both the ticket regex and the issue regex, the mapped change has kind
`jira` (Ticket), its primary key is the first ticket match uppercased, and the
first issue number is attached as the secondary key with its pull-request URL
— never the reverse. -/
theorem c3_ticket_priority (proj server owner repo : String) (keep : Bool)
    (c : Commit) (fj : String) (jrest : List String) (g : String)
    (grest : List String)
    (hj : jiraMatchList proj (allTextOf c.message) = fj :: jrest)
    (hg : githubMatchList (allTextOf c.message) = g :: grest) :
    changeEntryOf proj server owner repo keep c =
      some
        { kind := .jira
          key := upperStr fj
          summary := cleanTitle (commitTitleOf c.message)
          url := some (server ++ "/browse/" ++ upperStr fj)
          githubKey := some (stripHash g)
          githubUrl :=
            some ("https://github.com/" ++ owner ++ "/" ++ repo ++ "/pull/" ++ stripHash g) } := by
  unfold changeEntryOf
  simp only [hj, hg]

/-- Witness for C3: the end-to-end scenario commit of the spec, with both a
ticket key and an issue token in its text. -/
theorem c3_witness :
    changeEntryOf "ABC" "https://jira.example.com" "own" "rep" false
      ⟨"abc1234", "Fix login (#42)\n\nABC-100 fixes login (#42)"⟩ =
      some
        { kind := .jira
          key := upperStr "ABC-100"
          summary := cleanTitle (commitTitleOf "Fix login (#42)\n\nABC-100 fixes login (#42)")
          url := some ("https://jira.example.com" ++ "/browse/" ++ upperStr "ABC-100")
          githubKey := some (stripHash "#42")
          githubUrl :=
            some ("https://github.com/" ++ "own" ++ "/" ++ "rep" ++ "/pull/" ++ stripHash "#42") } :=
  c3_ticket_priority "ABC" "https://jira.example.com" "own" "rep" false
    ⟨"abc1234", "Fix login (#42)\n\nABC-100 fixes login (#42)"⟩
    "ABC-100" [] "#42" ["#42", "#42"] (by decide) (by decide)

/-- Claim C5 (corrected): the concrete extraction example holds — ticket keys
are found case-insensitively, uppercased, in order of appearance, and issue
keys keep only their digits — but duplicate ticket keys within one text are
retained, one entry per occurrence, not collapsed to the first occurrence. -/
theorem c5_extraction_amended :
    extractReferences "ABC" "fixed abc-12 and ABC-5, see #9" =
      (["ABC-12", "ABC-5"], ["9"]) ∧
    extractReferences "ABC" "ABC-7 ABC-7" = (["ABC-7", "ABC-7"], []) :=
  ⟨rfl, rfl⟩

/-- Counterexample for C5 as stated: on `"ABC-7 ABC-7"` the extractor returns
the duplicate key twice; the claimed collapse to the first occurrence fails. -/
theorem c5_counterexample :
    (extractReferences "ABC" "ABC-7 ABC-7").1 = ["ABC-7", "ABC-7"] ∧
    (["ABC-7", "ABC-7"] : List String) ≠ ["ABC-7"] :=
  ⟨rfl, by decide⟩

/-- Loop invariant for C8: the number of emitted lines is bounded by the number
of distinct short ids not yet marked as processed. -/
theorem processCommitsLoop_length_le (jp js ow rp : String) :
    ∀ (cs : List Commit) (seen : List String),
      (processCommitsLoop jp js ow rp cs seen).length ≤
        ((cs.map (fun c => jsTake c.sha 7)).toFinset \ seen.toFinset).card := by
  intro cs
  induction cs with
  | nil => intro seen; simp [processCommitsLoop]
  | cons c cs ih =>
      intro seen
      by_cases hmem : jsTake c.sha 7 ∈ seen
      · simp only [processCommitsLoop, if_pos hmem, List.map_cons, List.toFinset_cons,
          Finset.insert_sdiff_of_mem _ (List.mem_toFinset.mpr hmem)]
        exact ih seen
      · have hnot : jsTake c.sha 7 ∉ seen.toFinset := by
          simpa using hmem
        simp only [processCommitsLoop, if_neg hmem, List.map_cons, List.toFinset_cons,
          Finset.insert_sdiff_of_not_mem _ hnot]
        have hsub : ((cs.map (fun c => jsTake c.sha 7)).toFinset \
            (jsTake c.sha 7 :: seen).toFinset) ⊆
            insert (jsTake c.sha 7)
              ((cs.map (fun c => jsTake c.sha 7)).toFinset \ seen.toFinset) := by
          refine subset_trans ?_ (Finset.subset_insert _ _)
          refine Finset.sdiff_subset_sdiff (subset_refl _) ?_
          intro x hx
          simp only [List.toFinset_cons]
          exact Finset.mem_insert_of_mem hx
        cases hcl : changeLineOf jp js ow rp c with
        | none =>
            calc (processCommitsLoop jp js ow rp cs (jsTake c.sha 7 :: seen)).length
                ≤ ((cs.map (fun c => jsTake c.sha 7)).toFinset \
                    (jsTake c.sha 7 :: seen).toFinset).card := ih _
              _ ≤ (insert (jsTake c.sha 7)
                    ((cs.map (fun c => jsTake c.sha 7)).toFinset \ seen.toFinset)).card :=
                  Finset.card_le_card hsub
        | some line =>
            have hih := ih (jsTake c.sha 7 :: seen)
            have hrw : ((cs.map (fun c => jsTake c.sha 7)).toFinset \
                (jsTake c.sha 7 :: seen).toFinset) =
                ((cs.map (fun c => jsTake c.sha 7)).toFinset \ seen.toFinset).erase
                  (jsTake c.sha 7) := by
              rw [List.toFinset_cons, Finset.sdiff_insert]
            rw [hrw] at hih
            simp only [List.length_cons]
            by_cases hax : jsTake c.sha 7 ∈
                (cs.map (fun c => jsTake c.sha 7)).toFinset \ seen.toFinset
            · have h1 := Finset.card_erase_of_mem hax
              have h2 := Finset.card_insert_of_mem hax
              have h3 : 0 <
                  ((cs.map (fun c => jsTake c.sha 7)).toFinset \ seen.toFinset).card :=
                Finset.card_pos.mpr ⟨_, hax⟩
              omega
            · have h1 := Finset.erase_eq_of_not_mem hax
              have h2 := Finset.card_insert_of_not_mem hax
              rw [h1] at hih
              omega

/-- Loop invariant for C8: removing later duplicate short ids before the loop
does not change its output. -/
theorem processCommitsLoop_dedup (jp js ow rp : String) :
    ∀ (cs : List Commit) (seen : List String),
      processCommitsLoop jp js ow rp cs seen =
        processCommitsLoop jp js ow rp (dedupCommits cs seen) seen := by
  intro cs
  induction cs with
  | nil => intro seen; rfl
  | cons c cs ih =>
      intro seen
      by_cases hmem : jsTake c.sha 7 ∈ seen
      · simp only [processCommitsLoop, dedupCommits, if_pos hmem]
        exact ih seen
      · simp only [processCommitsLoop, dedupCommits, if_neg hmem]
        cases hcl : changeLineOf jp js ow rp c <;>
          simp only [hcl, ih (jsTake c.sha 7 :: seen)]

/-- Claim C8 (confirmed): the commit loop deduplicates by 7-character short id
with the first occurrence winning — its output length is at most the number of
distinct short ids, later duplicates are skipped without effect, and as a pure
function it is trivially deterministic. -/
theorem c8_mapCommits_dedup (jp js ow rp : String) (commits : List Commit) :
    (processCommits jp js ow rp commits).length ≤
      ((commits.map (fun c => jsTake c.sha 7)).toFinset).card ∧
    processCommits jp js ow rp commits =
      processCommits jp js ow rp (dedupCommits commits []) ∧
    processCommits jp js ow rp commits = processCommits jp js ow rp commits := by
  refine ⟨?_, ?_, rfl⟩
  · have h := processCommitsLoop_length_le jp js ow rp commits []
    simpa [processCommits, Finset.sdiff_empty] using h
  · exact processCommitsLoop_dedup jp js ow rp commits []

/-- The paren stripper removes exactly one trailing `" (#NNN)"` decoration when
the remaining prefix does not end in whitespace. -/
theorem stripParenDecoL_strip (U N : List Char) (hN : N ≠ [])
    (hAll : ∀ a ∈ N, a.isDigit = true)
    (hU : U.reverse.takeWhile isJsWs = []) :
    stripParenDecoL (U ++ ' ' :: '(' :: '#' :: (N ++ [')'])) = U := by
  have hrev : (U ++ ' ' :: '(' :: '#' :: (N ++ [')'])).reverse
      = ')' :: (N.reverse ++ '#' :: '(' :: ' ' :: U.reverse) := by
    simp
  have hws : isJsWs ')' = false := by decide
  have hdrop : (U ++ ' ' :: '(' :: '#' :: (N ++ [')'])).reverse.dropWhile isJsWs
      = ')' :: (N.reverse ++ '#' :: '(' :: ' ' :: U.reverse) := by
    rw [hrev, List.dropWhile_cons, hws]
    simp
  have hds : (N.reverse ++ '#' :: '(' :: ' ' :: U.reverse).takeWhile Char.isDigit
      = N.reverse :=
    takeWhile_append_all _ _ _ (fun a ha => hAll a (List.mem_reverse.mp ha)) (by decide)
  have hne : N.reverse.isEmpty = false := by
    simp [List.isEmpty_iff, List.reverse_eq_nil_iff, hN]
  unfold stripParenDecoL
  rw [hdrop]
  split
  · next r2 heq =>
      obtain rfl : r2 = N.reverse ++ '#' :: '(' :: ' ' :: U.reverse := by
        injection heq with h1 h2
        exact h2.symm
      rw [hds]
      dsimp only
      rw [hne]
      simp only [Bool.false_eq_true, if_false]
      rw [List.drop_left]
      split
      · next r3 heq2 =>
          obtain rfl : r3 = ' ' :: U.reverse := by
            injection heq2 with h1 h2
            injection h2 with h3 h4
            exact h4.symm
          rw [List.dropWhile_cons]
          have hsp : isJsWs ' ' = true := by decide
          rw [hsp]
          simp only [if_true]
          rw [dropWhile_of_takeWhile_nil hU, List.reverse_reverse]
      · next h =>
          exact absurd rfl (h (' ' :: U.reverse))
  · next h =>
      exact absurd rfl (h (N.reverse ++ '#' :: '(' :: ' ' :: U.reverse))

/-- The paren stripper does not fire on a string ending in a bare `" #NNN"`
decoration (the regex requires a closing paren). -/
theorem stripParenDecoL_inert (U N : List Char) (hN : N ≠ [])
    (hAll : ∀ a ∈ N, a.isDigit = true) :
    stripParenDecoL (U ++ ' ' :: '#' :: N) = U ++ ' ' :: '#' :: N := by
  obtain ⟨d, t, hdt⟩ : ∃ d t, N.reverse = d :: t := by
    cases hr : N.reverse with
    | nil => exact absurd (List.reverse_eq_nil_iff.mp hr) hN
    | cons d t => exact ⟨d, t, rfl⟩
  have hd : d.isDigit = true := by
    refine hAll d (List.mem_reverse.mp ?_)
    rw [hdt]
    exact List.mem_cons_self _ _
  have hrev : (U ++ ' ' :: '#' :: N).reverse = d :: (t ++ '#' :: ' ' :: U.reverse) := by
    simp [hdt]
  have hdrop : (U ++ ' ' :: '#' :: N).reverse.dropWhile isJsWs
      = d :: (t ++ '#' :: ' ' :: U.reverse) := by
    rw [hrev, List.dropWhile_cons, digit_not_ws hd]
    simp
  unfold stripParenDecoL
  rw [hdrop]
  split
  · next r2 heq =>
      exfalso
      injection heq with h1 h2
      rw [h1] at hd
      exact absurd hd (by decide)
  · rfl

/-- Reversing a string that ends in a nonempty digit run leaves no leading
whitespace to trim. -/
theorem takeWhile_ws_rev_digits (V M : List Char) (hM : M ≠ [])
    (hall : ∀ a ∈ M, a.isDigit = true) :
    (V ++ ' ' :: '#' :: M).reverse.takeWhile isJsWs = [] := by
  obtain ⟨d, t, hdt⟩ : ∃ d t, M.reverse = d :: t := by
    cases hr : M.reverse with
    | nil => exact absurd (List.reverse_eq_nil_iff.mp hr) hM
    | cons d t => exact ⟨d, t, rfl⟩
  have hd : d.isDigit = true := by
    refine hall d (List.mem_reverse.mp ?_)
    rw [hdt]
    exact List.mem_cons_self _ _
  have hrev : (V ++ ' ' :: '#' :: M).reverse = d :: (t ++ '#' :: ' ' :: V.reverse) := by
    simp [hdt]
  rw [hrev, List.takeWhile_cons, digit_not_ws hd]
  simp

/-- The bare stripper removes exactly one trailing `" #NNN"` decoration when the
remaining prefix does not end in whitespace. -/
theorem stripBareDecoL_strip (U N : List Char) (hN : N ≠ [])
    (hAll : ∀ a ∈ N, a.isDigit = true)
    (hU : U.reverse.takeWhile isJsWs = []) :
    stripBareDecoL (U ++ ' ' :: '#' :: N) = U := by
  have hrev : (U ++ ' ' :: '#' :: N).reverse = N.reverse ++ '#' :: ' ' :: U.reverse := by
    simp
  have hdrop : (U ++ ' ' :: '#' :: N).reverse.dropWhile isJsWs
      = N.reverse ++ '#' :: ' ' :: U.reverse := by
    rw [← hrev]
    exact dropWhile_of_takeWhile_nil (takeWhile_ws_rev_digits U N hN hAll)
  have hds : (N.reverse ++ '#' :: ' ' :: U.reverse).takeWhile Char.isDigit = N.reverse :=
    takeWhile_append_all _ _ _ (fun a ha => hAll a (List.mem_reverse.mp ha)) (by decide)
  have hne : N.reverse.isEmpty = false := by
    simp [List.isEmpty_iff, List.reverse_eq_nil_iff, hN]
  unfold stripBareDecoL
  dsimp only
  rw [hdrop, hds, hne]
  simp only [Bool.false_eq_true, if_false]
  rw [List.drop_left]
  split
  · next r2 heq =>
      obtain rfl : r2 = ' ' :: U.reverse := by
        injection heq with h1 h2
        exact h2.symm
      rw [List.dropWhile_cons]
      have hsp : isJsWs ' ' = true := by decide
      rw [hsp]
      simp only [if_true]
      rw [dropWhile_of_takeWhile_nil hU, List.reverse_reverse]
  · next h => exact absurd rfl (h (' ' :: U.reverse))

/-- String-level form: `stripParenDeco` removes exactly one trailing
parenthesised decoration. -/
theorem stripParenDeco_strip (u n : String) (hn : n.data ≠ [])
    (hall : ∀ a ∈ n.data, a.isDigit = true)
    (hu : u.data.reverse.takeWhile isJsWs = []) :
    stripParenDeco (u ++ " (#" ++ n ++ ")") = u := by
  have hdata : (u ++ " (#" ++ n ++ ")").data
      = u.data ++ ' ' :: '(' :: '#' :: (n.data ++ [')']) := by
    simp only [strDataAppend, List.append_assoc]
    rfl
  unfold stripParenDeco
  rw [hdata, stripParenDecoL_strip u.data n.data hn hall hu]

/-- String-level form: `stripParenDeco` leaves a bare-decorated title alone. -/
theorem stripParenDeco_inert_bare (u n : String) (hn : n.data ≠ [])
    (hall : ∀ a ∈ n.data, a.isDigit = true) :
    stripParenDeco (u ++ " #" ++ n) = u ++ " #" ++ n := by
  have hdata : (u ++ " #" ++ n).data = u.data ++ ' ' :: '#' :: n.data := by
    simp only [strDataAppend, List.append_assoc]
    rfl
  unfold stripParenDeco
  rw [hdata, stripParenDecoL_inert u.data n.data hn hall, ← hdata]

/-- String-level form: `stripBareDeco` removes exactly one trailing bare
decoration. -/
theorem stripBareDeco_strip (u n : String) (hn : n.data ≠ [])
    (hall : ∀ a ∈ n.data, a.isDigit = true)
    (hu : u.data.reverse.takeWhile isJsWs = []) :
    stripBareDeco (u ++ " #" ++ n) = u := by
  have hdata : (u ++ " #" ++ n).data = u.data ++ ' ' :: '#' :: n.data := by
    simp only [strDataAppend, List.append_assoc]
    rfl
  unfold stripBareDeco
  rw [hdata, stripBareDecoL_strip u.data n.data hn hall hu]

/-- Claim C4 (corrected): `cleanTitle` removes a trailing `" (#NNN)"`
decoration at most once and then removes a trailing `" #NNN"` decoration from
the result at most once.  A single decoration is removed exactly once, but a
title ending in the stacked `" #MMM (#NNN)"` loses both decorations, so the
inner one is not kept in that case. -/
theorem c4_title_cleaning_amended :
    (∀ u n : String, n.data ≠ [] → (∀ a ∈ n.data, a.isDigit = true) →
      u.data.reverse.takeWhile isJsWs = [] →
      cleanTitle (u ++ " (#" ++ n ++ ")") = stripBareDeco u) ∧
    (∀ u n : String, n.data ≠ [] → (∀ a ∈ n.data, a.isDigit = true) →
      u.data.reverse.takeWhile isJsWs = [] →
      cleanTitle (u ++ " #" ++ n) = u) ∧
    (∀ v m n : String, m.data ≠ [] → (∀ a ∈ m.data, a.isDigit = true) →
      n.data ≠ [] → (∀ a ∈ n.data, a.isDigit = true) →
      v.data.reverse.takeWhile isJsWs = [] →
      cleanTitle (v ++ " #" ++ m ++ " (#" ++ n ++ ")") = v) := by
  refine ⟨?_, ?_, ?_⟩
  · intro u n hn hall hu
    unfold cleanTitle
    rw [stripParenDeco_strip u n hn hall hu]
  · intro u n hn hall hu
    unfold cleanTitle
    rw [stripParenDeco_inert_bare u n hn hall, stripBareDeco_strip u n hn hall hu]
  · intro v m n hm1 hm2 hn1 hn2 hv
    have hu' : (v ++ " #" ++ m).data.reverse.takeWhile isJsWs = [] := by
      have hdata : (v ++ " #" ++ m).data = v.data ++ ' ' :: '#' :: m.data := by
        simp only [strDataAppend, List.append_assoc]
        rfl
      rw [hdata]
      exact takeWhile_ws_rev_digits v.data m.data hm1 hm2
    unfold cleanTitle
    rw [stripParenDeco_strip (v ++ " #" ++ m) n hn1 hn2 hu',
      stripBareDeco_strip v m hm1 hm2 hv]

/-- Witness for C4: the amended clauses applied at concrete titles. -/
theorem c4_witness :
    cleanTitle ("Add login" ++ " (#" ++ "12" ++ ")") = stripBareDeco "Add login" ∧
    cleanTitle ("Add login" ++ " #" ++ "7") = "Add login" ∧
    cleanTitle ("Fix" ++ " #" ++ "5" ++ " (#" ++ "6" ++ ")") = "Fix" :=
  ⟨c4_title_cleaning_amended.1 "Add login" "12" (by decide) (by decide) (by decide),
   c4_title_cleaning_amended.2.1 "Add login" "7" (by decide) (by decide) (by decide),
   c4_title_cleaning_amended.2.2 "Fix" "5" "6" (by decide) (by decide) (by decide)
     (by decide) (by decide)⟩

/-- Counterexample for C4 as stated: on the stacked title `"Fix #5 (#6)"` the
cleaner removes both decorations, so the inner `#5` is not kept. -/
theorem c4_counterexample :
    cleanTitle "Fix #5 (#6)" = "Fix" ∧ cleanTitle "Fix #5 (#6)" ≠ "Fix #5" :=
  ⟨rfl, by decide⟩

/-- First-occurrence replacement is inert when the pattern does not occur. -/
theorem replaceFirst_of_not_occurs (pat rep : List Char) :
    ∀ l, occursIn pat l = false → replaceFirstAux pat rep l = l := by
  intro l
  induction l with
  | nil =>
      intro h
      simp only [occursIn] at h
      simp [replaceFirstAux, h]
  | cons c rest ih =>
      intro h
      simp only [occursIn, Bool.or_eq_false_iff] at h
      simp only [replaceFirstAux, h.1, Bool.false_eq_true, if_false]
      rw [ih h.2]

/-- String-level form: `jsReplaceFirst` is the identity when the pattern is
absent. -/
theorem jsReplaceFirst_inert (s pat rep : String) (h : jsIncludes s pat = false) :
    jsReplaceFirst s pat rep = s := by
  unfold jsReplaceFirst
  rw [replaceFirst_of_not_occurs pat.data rep.data s.data h]

/-- The custom-template branch of `generateAndSendAnnouncement` in
`src/api/debug-channels.js` lines 265-268: one `replace` per placeholder, with
the change count coerced to its decimal string. -/
def renderCustomTemplate (customMessage releaseNumber : String) (changeCount : Nat) : String :=
  jsReplaceFirst
    (jsReplaceFirst customMessage "\x7b\x7breleaseNumber\x7d\x7d" releaseNumber)
    "\x7b\x7bchangeCount\x7d\x7d" (toString changeCount)

/-- Claim C9 (corrected): the custom template is returned with no further
formatting, but each placeholder is substituted only at its first occurrence
(`String.prototype.replace` with a string pattern replaces once): a template
without placeholders is returned verbatim, single occurrences are substituted,
and a repeated placeholder keeps its later occurrences unsubstituted. -/
theorem c9_template_first_occurrence_amended :
    (∀ t rid cnt, jsIncludes t "\x7b\x7breleaseNumber\x7d\x7d" = false →
      jsIncludes t "\x7b\x7bchangeCount\x7d\x7d" = false →
      renderCustomTemplate t rid cnt = t) ∧
    renderCustomTemplate
      "Release \x7b\x7breleaseNumber\x7d\x7d has \x7b\x7bchangeCount\x7d\x7d changes"
      "2.1" 5 = "Release 2.1 has 5 changes" ∧
    renderCustomTemplate "\x7b\x7breleaseNumber\x7d\x7d \x7b\x7breleaseNumber\x7d\x7d" "7" 0 =
      "7 \x7b\x7breleaseNumber\x7d\x7d" := by
  refine ⟨?_, rfl, rfl⟩
  intro t rid cnt h1 h2
  unfold renderCustomTemplate
  rw [jsReplaceFirst_inert _ _ _ h1, jsReplaceFirst_inert _ _ _ h2]

/-- Witness for C9: the no-placeholder clause applied at a concrete template. -/
theorem c9_witness : renderCustomTemplate "plain announcement" "9" 2 = "plain announcement" :=
  c9_template_first_occurrence_amended.1 "plain announcement" "9" 2 (by decide) (by decide)

/-- Counterexample for C9 as stated: a template with two `releaseNumber`
placeholders keeps the second one verbatim; not every occurrence is replaced. -/
theorem c9_counterexample :
    renderCustomTemplate "\x7b\x7breleaseNumber\x7d\x7d and \x7b\x7breleaseNumber\x7d\x7d"
      "7" 3 = "7 and \x7b\x7breleaseNumber\x7d\x7d" ∧
    ("7 and \x7b\x7breleaseNumber\x7d\x7d" : String) ≠ "7 and 7" :=
  ⟨rfl, by decide⟩

/-- JS `String.prototype.startsWith`. -/
def jsStartsWith (s pat : String) : Bool := pat.data.isPrefixOf s.data

/-- One Slack block as inspected by the interaction handler: its `type` and the
optional `text.text` payload (`none` models a missing text object). -/
structure SlackBlock where
  type : String
  text : Option String

/-- Bullet lines of one block text: `src/api/slack-interactions.js` lines 54-59
(split on newlines, keep trimmed lines starting with the bullet marker). -/
def extractBulletsFromText (t : String) : List String :=
  (jsSplit t '\n').filterMap fun line =>
    if jsStartsWith (jsTrim line) "• " then some (jsTrim line) else none

/-- First extraction pass, `src/api/slack-interactions.js` lines 42-62: skip
section blocks until one containing `*Changes:*` is seen (that block included),
then collect bullet lines; empty text strings are falsy and skipped. -/
def extractPass1 : List SlackBlock → Bool → List String
  | [], _ => []
  | b :: rest, found =>
      if b.type = "section" then
        match b.text with
        | some t =>
            if t ≠ "" then
              let found2 := found || jsIncludes t "*Changes:*"
              (if found2 then extractBulletsFromText t else []) ++ extractPass1 rest found2
            else extractPass1 rest found
        | none => extractPass1 rest found
      else extractPass1 rest found

/-- Aggressive second pass, lines 67-83: bullet lines of every section block. -/
def extractPass2 : List SlackBlock → List String
  | [] => []
  | b :: rest =>
      if b.type = "section" then
        match b.text with
        | some t => (if t ≠ "" then extractBulletsFromText t else []) ++ extractPass2 rest
        | none => extractPass2 rest
      else extractPass2 rest

/-- The decoded button value as destructured on lines 28-33: a missing
`allChanges` field is modelled by the empty list. -/
structure ButtonData where
  allChanges : List String
  simplified : Bool
  changeCount : Nat

/-- `fullChanges` computation, lines 32-84: carried changes are used as-is for
a full token; otherwise they are recovered from the rendered message blocks,
retrying aggressively when fewer than `changeCount` lines are found. -/
def computeFullChanges (bd : ButtonData) (blocks : List SlackBlock) : List String :=
  if bd.allChanges.isEmpty || bd.simplified then
    let extracted := extractPass1 blocks false
    if extracted.length < bd.changeCount then extractPass2 blocks else extracted
  else bd.allChanges

/-- Selection reconciliation, lines 89-124: checked option values index into
`fullChanges` (out-of-range indices ignored), and an empty selection falls open
to all recoverable changes. -/
def reconcileSelection (bd : ButtonData) (blocks : List SlackBlock)
    (checkedIndices : List Int) : List String :=
  let fullChanges := computeFullChanges bd blocks
  let selected := checkedIndices.filterMap fun i =>
    if 0 ≤ i ∧ i < (fullChanges.length : Int) then some (fullChanges.getD i.toNat "")
    else none
  if selected.length = 0 ∧ fullChanges.length > 0 then fullChanges else selected

/-- Claim C6 (confirmed): for every full token carrying a nonempty changes
list, an empty checked-index set makes `reconcileSelection` fail open and
return all carried changes rather than the empty sequence. -/
theorem c6_selection_fail_open (bd : ButtonData) (blocks : List SlackBlock)
    (hfull : bd.simplified = false) (hne : bd.allChanges ≠ []) :
    reconcileSelection bd blocks [] = bd.allChanges := by
  have h1 : bd.allChanges.isEmpty = false := by
    simp [List.isEmpty_iff, hne]
  have h2 : 0 < bd.allChanges.length := List.length_pos.mpr hne
  simp [reconcileSelection, computeFullChanges, hfull, h1, h2]

/-- Witness for C6: a full token carrying five changes and an empty selection
returns all five. -/
theorem c6_witness :
    reconcileSelection ⟨["a", "b", "c", "d", "e"], false, 5⟩ [] [] =
      ["a", "b", "c", "d", "e"] :=
  c6_selection_fail_open ⟨["a", "b", "c", "d", "e"], false, 5⟩ [] rfl (by decide)

/-- Lowercase hexadecimal digit, as printed by `JSON.stringify` escapes. -/
def hexDigit (n : Nat) : Char :=
  if n < 10 then Char.ofNat ('0'.toNat + n) else Char.ofNat ('a'.toNat + n - 10)

/-- `JSON.stringify` escaping of one character inside a string literal. -/
def jsonEscapeChar (c : Char) : List Char :=
  if c = '"' then ['\\', '"']
  else if c = '\\' then ['\\', '\\']
  else if c = '\n' then ['\\', 'n']
  else if c = '\t' then ['\\', 't']
  else if c = '\x0d' then ['\\', 'r']
  else if c = '\x08' then ['\\', 'b']
  else if c = '\x0c' then ['\\', 'f']
  else if c.toNat < 32 then
    ['\\', 'u', '0', '0', hexDigit (c.toNat / 16), hexDigit (c.toNat % 16)]
  else [c]

/-- A JSON string literal for `s`. -/
def jsonStr (s : String) : String :=
  "\"" ++ ⟨s.data.foldr (fun c acc => jsonEscapeChar c ++ acc) []⟩ ++ "\""

/-- Comma-joined list entries, as inside a JSON array. -/
def joinComma : List String → String
  | [] => ""
  | [x] => x
  | x :: y :: rest => x ++ "," ++ joinComma (y :: rest)

/-- The object serialised by `createSafeButtonValue` in
`src/unnamed/part_002` lines 406-411: `{allChanges, releaseNumber, channelId,
channelName}`. -/
structure ButtonPayload where
  allChanges : List String
  releaseNumber : String
  channelId : String
  channelName : String

/-- `JSON.stringify(data)` for the full payload, keys in insertion order. -/
def stringifyPayload (d : ButtonPayload) : String :=
  "\x7b\"allChanges\":[" ++ joinComma (d.allChanges.map jsonStr) ++
    "],\"releaseNumber\":" ++ jsonStr d.releaseNumber ++
    ",\"channelId\":" ++ jsonStr d.channelId ++
    ",\"channelName\":" ++ jsonStr d.channelName ++ "\x7d"

/-- `JSON.stringify(simplified)` for the reduced token of
`src/unnamed/part_002` lines 80-89. -/
def stringifySimplified (releaseNumber channelId channelName : String)
    (changeCount : Nat) (changesHash : String) : String :=
  "\x7b\"releaseNumber\":" ++ jsonStr releaseNumber ++
    ",\"channelId\":" ++ jsonStr channelId ++
    ",\"channelName\":" ++ jsonStr channelName ++
    ",\"changeCount\":" ++ toString changeCount ++
    ",\"simplified\":true,\"changesHash\":" ++ jsonStr changesHash ++ "\x7d"

/-- `createSafeButtonValue` from `src/unnamed/part_002` lines 69-90: the full
serialisation when it fits, otherwise the reduced token whose `changesHash` is
the first 50 characters of the concatenated change lines. -/
def createSafeButtonValue (d : ButtonPayload) (maxLength : Nat) : String :=
  let jsonString := stringifyPayload d
  if jsonString.length ≤ maxLength then jsonString
  else
    let changesHash := jsTake (String.join d.allChanges) 50
    stringifySimplified d.releaseNumber d.channelId d.channelName
      d.allChanges.length changesHash

/-- Claim C7 (confirmed): the encoder returns the serialised payload unmodified
whenever its size is within the limit, and otherwise returns the reduced token
carrying only the release id, the destination, the change count, the
`simplified` marker and the 50-character digest of the concatenated changes. -/
theorem c7_token_encoding (d : ButtonPayload) (maxLength : Nat) :
    ((stringifyPayload d).length ≤ maxLength →
      createSafeButtonValue d maxLength = stringifyPayload d) ∧
    (maxLength < (stringifyPayload d).length →
      createSafeButtonValue d maxLength =
        stringifySimplified d.releaseNumber d.channelId d.channelName
          d.allChanges.length (jsTake (String.join d.allChanges) 50)) := by
  constructor
  · intro h
    simp [createSafeButtonValue, h]
  · intro h
    simp [createSafeButtonValue, Nat.not_le.mpr h]

/-- Witness for C7: both branches at concrete payloads. -/
theorem c7_witness :
    createSafeButtonValue ⟨["x"], "1", "C1", "gen"⟩ 1000 =
      stringifyPayload ⟨["x"], "1", "C1", "gen"⟩ ∧
    createSafeButtonValue ⟨["abcdefgh"], "1", "C1", "gen"⟩ 10 =
      stringifySimplified "1" "C1" "gen" 1 (jsTake (String.join ["abcdefgh"]) 50) :=
  ⟨(c7_token_encoding ⟨["x"], "1", "C1", "gen"⟩ 1000).1 (by decide),
   (c7_token_encoding ⟨["abcdefgh"], "1", "C1", "gen"⟩ 10).2 (by decide)⟩

/-- JS `Array.prototype.join('\n')`. -/
def joinLines : List String → String
  | [] => ""
  | [l] => l
  | l :: y :: rest => l ++ "\n" ++ joinLines (y :: rest)

/-- The loop of `chunkTextForSlack` in `src/unnamed/part_002` lines 38-65:
greedily pack lines into `currentChunk`, flushing (trimmed) into `chunks` when
a line no longer fits, hard-truncating a line longer than `maxLength` into its
own chunk, and flushing the trailing chunk at the end. -/
def chunkLines (maxLength : Nat) : List String → List String → String → List String
  | [], chunks, currentChunk =>
      if currentChunk ≠ "" then chunks ++ [jsTrim currentChunk] else chunks
  | line :: rest, chunks, currentChunk =>
      if currentChunk.length + line.length + 1 > maxLength then
        let chunks2 := if currentChunk ≠ "" then chunks ++ [jsTrim currentChunk] else chunks
        if line.length > maxLength then
          chunkLines maxLength rest (chunks2 ++ [jsTake line (maxLength - 3) ++ "..."]) ""
        else
          chunkLines maxLength rest chunks2 line
      else
        chunkLines maxLength rest chunks
          (if currentChunk ≠ "" then currentChunk ++ "\n" ++ line else currentChunk ++ line)

/-- `chunkTextForSlack` from `src/unnamed/part_002` lines 33-66 (the JS default
for `maxLength` is 2900; it is passed explicitly here). -/
def chunkTextForSlack (text : String) (maxLength : Nat) : List String :=
  if text.length ≤ maxLength then [text]
  else chunkLines maxLength (jsSplit text '\n') [] ""

/-- The content the loop keeps for an accumulated run of lines: leading
empty-string lines contribute nothing (the JS falsy separator check). -/
def joinDrop (pending : List String) : String :=
  joinLines (pending.dropWhile (· == ""))

/-- What one group of consecutive input lines contributes to the output: a
line longer than `maxLength` becomes its hard truncation; a packed run becomes
its trimmed newline-join, or nothing when every line in the run is empty. -/
def renderGroup (maxLength : Nat) (g : List String) : Option String :=
  if g.length = 1 ∧ maxLength < (g.headD "").length then
    some (jsTake (g.headD "") (maxLength - 3) ++ "...")
  else if g.all (· == "") then none
  else some (jsTrim (joinLines g))

/-- A valid group: either one over-long line, or lines that all fit. -/
def GroupOK (maxLength : Nat) (g : List String) : Prop :=
  (∃ l, g = [l] ∧ maxLength < l.length) ∨ ∀ l ∈ g, l.length ≤ maxLength

/-- Counterexample for C1 as stated: with `maxLength = 1` the truncated chunk
`"..."` is longer than `maxLength`; and on `"a\n \nb"` with `maxLength = 2`
the trimmed flush emits an empty chunk and joining the chunks loses the
whitespace-only line even though no line exceeded `maxLength`. -/
theorem c1_counterexample :
    ((chunkTextForSlack "ab" 1).all fun c => decide (c.length ≤ 1)) = false ∧
    chunkTextForSlack "a\n \nb" 2 = ["a", "", "b"] ∧
    joinLines (chunkTextForSlack "a\n \nb" 2) ≠ "a\n \nb" :=
  ⟨rfl, rfl, by decide⟩

theorem strLengthAppend (a b : String) : (a ++ b).length = a.length + b.length := by
  cases a with
  | mk la =>
      cases b with
      | mk lb =>
          show (la ++ lb).length = la.length + lb.length
          exact List.length_append la lb

theorem strAppendAssoc (a b c : String) : a ++ b ++ c = a ++ (b ++ c) := by
  cases a with
  | mk la =>
      cases b with
      | mk lb =>
          cases c with
          | mk lc =>
              show (⟨la ++ lb ++ lc⟩ : String) = ⟨la ++ (lb ++ lc)⟩
              rw [List.append_assoc]

theorem strLengthEmpty : ("" : String).length = 0 := rfl

theorem strEmptyAppend (s : String) : "" ++ s = s := by
  cases s
  rfl

theorem strLengthEqZero {s : String} (h : s.length = 0) : s = "" := by
  cases s with
  | mk data =>
      cases data with
      | nil => rfl
      | cons c cs => simp [String.length] at h

theorem jsTrim_length_le (s : String) : (jsTrim s).length ≤ s.length := by
  cases s with
  | mk data =>
      show (jsTrimL data).length ≤ data.length
      unfold jsTrimL
      calc ((data.dropWhile isJsWs).reverse.dropWhile isJsWs).reverse.length
          = ((data.dropWhile isJsWs).reverse.dropWhile isJsWs).length := by
            rw [List.length_reverse]
        _ ≤ (data.dropWhile isJsWs).reverse.length :=
            (List.dropWhile_sublist isJsWs).length_le
        _ = (data.dropWhile isJsWs).length := by rw [List.length_reverse]
        _ ≤ data.length := (List.dropWhile_sublist isJsWs).length_le

theorem jsTake_length (s : String) (n : Nat) : (jsTake s n).length = min n s.length := by
  cases s
  simp [jsTake, String.length, List.length_take]

theorem joinLines_cons_cons (l y : String) (rest : List String) :
    joinLines (l :: y :: rest) = l ++ "\n" ++ joinLines (y :: rest) := rfl

theorem joinLines_append_singleton :
    ∀ (xs : List String), xs ≠ [] → ∀ (l : String),
      joinLines (xs ++ [l]) = joinLines xs ++ "\n" ++ l := by
  intro xs
  induction xs with
  | nil => intro h; exact absurd rfl h
  | cons a t ih =>
      intro _ l
      cases t with
      | nil => rfl
      | cons b t2 =>
          have h2 := ih (by simp) l
          show a ++ "\n" ++ joinLines ((b :: t2) ++ [l]) =
            (a ++ "\n" ++ joinLines (b :: t2)) ++ "\n" ++ l
          rw [h2]
          simp only [strAppendAssoc]

theorem jsTrim_newline (s : String) : jsTrim ("\n" ++ s) = jsTrim s := by
  cases s with
  | mk l =>
      show (⟨jsTrimL ('\n' :: l)⟩ : String) = ⟨jsTrimL l⟩
      unfold jsTrimL
      rw [List.dropWhile_cons]
      have h : isJsWs '\n' = true := by decide
      rw [h]
      simp

theorem dropWhile_cons_eq_false {α : Type} {p : α → Bool} {l : List α} {h : α}
    {t : List α} (hd : l.dropWhile p = h :: t) : p h = false := by
  induction l with
  | nil => simp [List.dropWhile] at hd
  | cons a rest ih =>
      rw [List.dropWhile_cons] at hd
      cases hpa : p a with
      | true => rw [hpa] at hd; simp at hd; exact ih hd
      | false =>
          rw [hpa] at hd
          simp at hd
          rw [← hd.1]
          exact hpa

theorem dropWhile_append_of_ne_nil {α : Type} {p : α → Bool} {xs : List α} {h : α}
    {t : List α} (hxs : xs.dropWhile p = h :: t) (ys : List α) :
    (xs ++ ys).dropWhile p = (h :: t) ++ ys := by
  induction xs with
  | nil => simp [List.dropWhile] at hxs
  | cons a rest ih =>
      rw [List.dropWhile_cons] at hxs
      rw [List.cons_append, List.dropWhile_cons]
      cases hpa : p a with
      | true =>
          rw [hpa] at hxs
          simp at hxs
          simp only [if_true]
          exact ih hxs
      | false =>
          rw [hpa] at hxs
          simp at hxs
          simp only [Bool.false_eq_true, if_false]
          rw [hxs.1, hxs.2]
          rfl

theorem dropWhile_append_of_nil {α : Type} {p : α → Bool} {xs : List α}
    (hxs : xs.dropWhile p = []) (ys : List α) :
    (xs ++ ys).dropWhile p = ys.dropWhile p := by
  induction xs with
  | nil => rfl
  | cons a rest ih =>
      rw [List.dropWhile_cons] at hxs
      rw [List.cons_append, List.dropWhile_cons]
      cases hpa : p a with
      | true =>
          rw [hpa] at hxs
          rw [if_pos rfl] at hxs
          simp only [if_true]
          exact ih hxs
      | false =>
          rw [hpa] at hxs
          simp at hxs

theorem joinDrop_singleton (l : String) : joinDrop [l] = l := by
  by_cases h : l = ""
  · subst h
    rfl
  · unfold joinDrop
    rw [List.dropWhile_cons]
    have hb : (l == "") = false := by simp [h]
    rw [hb]
    simp only [Bool.false_eq_true, if_false]
    rfl

theorem joinDrop_eq_empty_iff (g : List String) :
    joinDrop g = "" ↔ ∀ l ∈ g, l = "" := by
  cases hd : g.dropWhile (· == "") with
  | nil =>
      have hall := List.dropWhile_eq_nil_iff.mp hd
      constructor
      · intro _ l hl
        exact eq_of_beq (hall l hl)
      · intro _
        unfold joinDrop
        rw [hd]
        rfl
  | cons x t =>
      have hx : (x == "") = false :=
        @dropWhile_cons_eq_false String (fun s => s == "") g x t hd
      have hxne : x ≠ "" := by simpa using hx
      have hmem : x ∈ g :=
        (List.dropWhile_sublist (· == "")).subset (hd ▸ List.mem_cons_self x t)
      constructor
      · intro habs
        exfalso
        unfold joinDrop at habs
        rw [hd] at habs
        have hlen : x.length ≤ (joinLines (x :: t)).length := by
          cases t with
          | nil => exact le_refl _
          | cons y r =>
              rw [joinLines_cons_cons, strLengthAppend, strLengthAppend]
              omega
        rw [habs, strLengthEmpty] at hlen
        exact hxne (strLengthEqZero (Nat.le_zero.mp hlen))
      · intro hall
        exact absurd (hall x hmem) hxne

theorem trim_joinDrop (g : List String) : jsTrim (joinDrop g) = jsTrim (joinLines g) := by
  unfold joinDrop
  induction g with
  | nil => rfl
  | cons a t ih =>
      by_cases ha : a = ""
      · subst ha
        rw [List.dropWhile_cons]
        have hb : (("" : String) == "") = true := by decide
        rw [hb]
        simp only [if_true]
        rw [ih]
        cases t with
        | nil => rfl
        | cons y r =>
            rw [joinLines_cons_cons, strEmptyAppend, jsTrim_newline]
      · have hb : (a == "") = false := by simp [ha]
        rw [List.dropWhile_cons, hb]
        simp

theorem joinDrop_append_of_ne (pending : List String) (l : String)
    (h : joinDrop pending ≠ "") :
    joinDrop (pending ++ [l]) = joinDrop pending ++ "\n" ++ l := by
  cases hd : pending.dropWhile (· == "") with
  | nil =>
      exfalso
      apply h
      unfold joinDrop
      rw [hd]
      rfl
  | cons x t =>
      unfold joinDrop
      rw [dropWhile_append_of_ne_nil hd [l], hd]
      exact joinLines_append_singleton (x :: t) (by simp) l

theorem joinDrop_append_of_empty (pending : List String) (l : String)
    (h : joinDrop pending = "") :
    joinDrop (pending ++ [l]) = l := by
  have hall := (joinDrop_eq_empty_iff pending).mp h
  have hd : pending.dropWhile (· == "") = [] :=
    List.dropWhile_eq_nil_iff.mpr (fun x hx => by rw [hall x hx]; rfl)
  unfold joinDrop
  rw [dropWhile_append_of_nil hd [l]]
  exact joinDrop_singleton l

theorem renderGroup_pack (maxLength : Nat) (pending : List String)
    (hlen : ∀ l ∈ pending, l.length ≤ maxLength)
    (hne : joinDrop pending ≠ "") :
    renderGroup maxLength pending = some (jsTrim (joinDrop pending)) := by
  have hA : ¬(pending.length = 1 ∧ maxLength < (pending.headD "").length) := by
    rintro ⟨h1, h2⟩
    obtain ⟨a, rfl⟩ := List.length_eq_one.mp h1
    exact absurd h2 (Nat.not_lt.mpr (hlen a (List.mem_cons_self a [])))
  have hB : pending.all (· == "") = false := by
    cases hb : pending.all (· == "") with
    | false => rfl
    | true =>
        exfalso
        apply hne
        exact (joinDrop_eq_empty_iff pending).mpr
          (fun l hl => eq_of_beq (List.all_eq_true.mp hb l hl))
  unfold renderGroup
  rw [if_neg hA, hB]
  simp only [Bool.false_eq_true, if_false]
  rw [trim_joinDrop]

theorem renderGroup_none (maxLength : Nat) (pending : List String)
    (hall : ∀ l ∈ pending, l = "") (hne : pending ≠ []) :
    renderGroup maxLength pending = none := by
  have hA : ¬(pending.length = 1 ∧ maxLength < (pending.headD "").length) := by
    rintro ⟨h1, h2⟩
    obtain ⟨a, rfl⟩ := List.length_eq_one.mp h1
    rw [hall a (List.mem_cons_self a [])] at h2
    exact absurd h2 (Nat.not_lt_zero maxLength)
  have hB : pending.all (· == "") = true :=
    List.all_eq_true.mpr (fun l hl => by rw [hall l hl]; rfl)
  unfold renderGroup
  rw [if_neg hA, hB]
  rfl

theorem renderGroup_trunc (maxLength : Nat) (l : String) (h : maxLength < l.length) :
    renderGroup maxLength [l] = some (jsTake l (maxLength - 3) ++ "...") := by
  unfold renderGroup
  rw [if_pos ⟨rfl, h⟩]
  rfl

/-- The group contributed by the currently accumulated run when it is flushed
(no group when nothing was accumulated). -/
def pendGroups (pending : List String) : List (List String) :=
  if pending.isEmpty then [] else [pending]

/-- What a flush of the accumulated run pushes onto `chunks`: exactly the
rendering of its group. -/
theorem flush_step (maxLength : Nat) (pending chunks : List String) (cc : String)
    (hcc : cc = joinDrop pending)
    (hplen : ∀ l ∈ pending, l.length ≤ maxLength) :
    (if cc ≠ "" then chunks ++ [jsTrim cc] else chunks) =
      chunks ++ (pendGroups pending).filterMap (renderGroup maxLength) ∧
    (pendGroups pending).flatten = pending ∧
    (∀ g ∈ pendGroups pending, g ≠ []) ∧
    (∀ g ∈ pendGroups pending, GroupOK maxLength g) ∧
    (∀ c ∈ (pendGroups pending).filterMap (renderGroup maxLength),
      c.length ≤ cc.length) := by
  subst hcc
  by_cases hpn : pending = []
  · subst hpn
    refine ⟨?_, rfl, by simp [pendGroups], by simp [pendGroups], by simp [pendGroups]⟩
    simp [pendGroups, joinDrop]
    rfl
  · have hpe : pending.isEmpty = false := by simp [List.isEmpty_iff, hpn]
    by_cases hccne : joinDrop pending = ""
    · have hall := (joinDrop_eq_empty_iff pending).mp hccne
      have hrg := renderGroup_none maxLength pending hall hpn
      refine ⟨?_, ?_, ?_, ?_, ?_⟩
      · rw [if_neg (fun hn => hn hccne)]
        simp [pendGroups, hpe, List.filterMap_cons, hrg]
      · simp [pendGroups, hpe]
      · simp [pendGroups, hpe, hpn]
      · intro g hg
        simp [pendGroups, hpe] at hg
        subst hg
        exact Or.inr hplen
      · simp [pendGroups, hpe, List.filterMap_cons, hrg]
    · have hrg := renderGroup_pack maxLength pending hplen hccne
      refine ⟨?_, ?_, ?_, ?_, ?_⟩
      · rw [if_pos hccne]
        simp [pendGroups, hpe, List.filterMap_cons, hrg]
      · simp [pendGroups, hpe]
      · simp [pendGroups, hpe, hpn]
      · intro g hg
        simp [pendGroups, hpe] at hg
        subst hg
        exact Or.inr hplen
      · intro c hc
        simp [pendGroups, hpe, List.filterMap_cons, hrg] at hc
        subst hc
        exact jsTrim_length_le _

/-- Main invariant of the chunking loop: the remaining lines, together with the
currently accumulated run, partition into groups whose renderings the loop
appends to `chunks`, every group is a valid truncation-or-pack group, and
every emitted chunk is bounded by `max maxLength 3`. -/
theorem chunkLines_spec (maxLength : Nat) :
    ∀ (lines pending chunks : List String) (cc : String),
      cc = joinDrop pending →
      (∀ l ∈ pending, l.length ≤ maxLength) →
      cc.length ≤ maxLength →
      ∃ groups : List (List String),
        pending ++ lines = groups.flatten ∧
        (∀ g ∈ groups, g ≠ []) ∧
        (∀ g ∈ groups, GroupOK maxLength g) ∧
        chunkLines maxLength lines chunks cc =
          chunks ++ groups.filterMap (renderGroup maxLength) ∧
        (∀ c ∈ groups.filterMap (renderGroup maxLength), c.length ≤ max maxLength 3) := by
  intro lines
  induction lines with
  | nil =>
      intro pending chunks cc hcc hplen hcclen
      obtain ⟨hpush, hflat, hgne, hgok, hclen⟩ :=
        flush_step maxLength pending chunks cc hcc hplen
      refine ⟨pendGroups pending, by simp [hflat], hgne, hgok, hpush, ?_⟩
      intro c hc
      exact le_trans (le_trans (hclen c hc) hcclen) (Nat.le_max_left _ _)
  | cons line rest ih =>
      intro pending chunks cc hcc hplen hcclen
      by_cases hflush : cc.length + line.length + 1 > maxLength
      · obtain ⟨hpush, hflat, hgne, hgok, hclen⟩ :=
          flush_step maxLength pending chunks cc hcc hplen
        by_cases hlong : line.length > maxLength
        · obtain ⟨groups, hflat2, hgne2, hgok2, heq2, hlen2⟩ :=
            ih []
              ((chunks ++ (pendGroups pending).filterMap (renderGroup maxLength)) ++
                [jsTake line (maxLength - 3) ++ "..."])
              "" rfl (by simp) (Nat.zero_le maxLength)
          refine ⟨pendGroups pending ++ [line] :: groups, ?_, ?_, ?_, ?_, ?_⟩
          · rw [List.flatten_append, List.flatten_cons, hflat]
            have hrest : rest = groups.flatten := by simpa using hflat2
            rw [← hrest]
            rfl
          · intro g hg
            rcases List.mem_append.mp hg with h | h
            · exact hgne g h
            · rcases List.mem_cons.mp h with rfl | h2
              · simp
              · exact hgne2 g h2
          · intro g hg
            rcases List.mem_append.mp hg with h | h
            · exact hgok g h
            · rcases List.mem_cons.mp h with rfl | h2
              · exact Or.inl ⟨line, rfl, hlong⟩
              · exact hgok2 g h2
          · show chunkLines maxLength (line :: rest) chunks cc = _
            simp only [chunkLines]
            rw [if_pos hflush, if_pos hlong, hpush, heq2]
            rw [List.filterMap_append, List.filterMap_cons,
              renderGroup_trunc maxLength line hlong]
            simp [List.append_assoc]
          · intro c hc
            rw [List.filterMap_append, List.filterMap_cons,
              renderGroup_trunc maxLength line hlong] at hc
            rcases List.mem_append.mp hc with h | h
            · exact le_trans (le_trans (hclen c h) hcclen) (Nat.le_max_left _ _)
            · rcases List.mem_cons.mp h with rfl | h2
              · rw [strLengthAppend, jsTake_length]
                have h3 : ("..." : String).length = 3 := rfl
                rw [h3]
                omega
              · exact hlen2 c h2
        · have hlineLe : line.length ≤ maxLength := Nat.not_lt.mp hlong
          obtain ⟨groups, hflat2, hgne2, hgok2, heq2, hlen2⟩ :=
            ih [line] (chunks ++ (pendGroups pending).filterMap (renderGroup maxLength))
              line (joinDrop_singleton line).symm
              (by intro l hl; simp at hl; subst hl; exact hlineLe) hlineLe
          refine ⟨pendGroups pending ++ groups, ?_, ?_, ?_, ?_, ?_⟩
          · rw [List.flatten_append, hflat, ← hflat2]
            rfl
          · intro g hg
            rcases List.mem_append.mp hg with h | h
            · exact hgne g h
            · exact hgne2 g h
          · intro g hg
            rcases List.mem_append.mp hg with h | h
            · exact hgok g h
            · exact hgok2 g h
          · show chunkLines maxLength (line :: rest) chunks cc = _
            simp only [chunkLines]
            rw [if_pos hflush, if_neg hlong, hpush, heq2, List.filterMap_append]
            simp [List.append_assoc]
          · intro c hc
            rw [List.filterMap_append] at hc
            rcases List.mem_append.mp hc with h | h
            · exact le_trans (le_trans (hclen c h) hcclen) (Nat.le_max_left _ _)
            · exact hlen2 c h
      · have hle : cc.length + line.length + 1 ≤ maxLength := Nat.not_lt.mp hflush
        have hjd : cc = "" → joinDrop pending = "" := fun h => by rw [← hcc]; exact h
        set cc2 := if cc ≠ "" then cc ++ "\n" ++ line else cc ++ line with hcc2
        have hcc2' : cc2 = joinDrop (pending ++ [line]) := by
          by_cases hccne : cc = ""
          · rw [hcc2, if_neg (fun hn => hn hccne), hccne, strEmptyAppend,
              joinDrop_append_of_empty pending line (hjd hccne)]
          · rw [hcc2, if_pos hccne, hcc,
              joinDrop_append_of_ne pending line (fun h => hccne (hcc.trans h))]
        have hplen2 : ∀ l ∈ pending ++ [line], l.length ≤ maxLength := by
          intro l hl
          rcases List.mem_append.mp hl with h | h
          · exact hplen l h
          · simp at h
            subst h
            omega
        have hcc2len : cc2.length ≤ maxLength := by
          rw [hcc2]
          by_cases hccne : cc = ""
          · rw [if_neg (fun hn => hn hccne), hccne, strEmptyAppend]
            have hz : ("" : String).length = 0 := rfl
            rw [hccne, hz] at hle
            omega
          · rw [if_pos hccne, strLengthAppend, strLengthAppend]
            have h1 : ("\n" : String).length = 1 := rfl
            rw [h1]
            omega
        obtain ⟨groups, hflat2, hgne2, hgok2, heq2, hlen2⟩ :=
          ih (pending ++ [line]) chunks cc2 hcc2' hplen2 hcc2len
        refine ⟨groups, ?_, hgne2, hgok2, ?_, hlen2⟩
        · rw [← hflat2]
          simp
        · show chunkLines maxLength (line :: rest) chunks cc = _
          simp only [chunkLines]
          rw [if_neg hflush, ← hcc2]
          exact heq2

/-- Claim C1 (corrected): `chunk(text, maxLength)` returns `[text]` when the
text fits; otherwise every chunk's length is at most `max maxLength 3` (the
truncation marker forces 3 even below that limit), and the input lines
partition in order into nonempty consecutive groups — each either a single
line longer than `maxLength`, emitted as its truncation to `maxLength - 3`
characters plus `"..."`, or a run of lines that all fit, emitted as the
trimmed newline-join of the run (emitting nothing when every line in the run
is empty).  Chunk boundaries never split a line and order is preserved, but
chunks can be empty strings and joining reconstructs the text only up to
truncation, boundary trimming and dropped all-empty runs. -/
theorem c1_chunking_amended (text : String) (maxLength : Nat)
    (hpos : 1 ≤ maxLength) :
    (text.length ≤ maxLength → chunkTextForSlack text maxLength = [text]) ∧
    (∀ c ∈ chunkTextForSlack text maxLength, c.length ≤ max maxLength 3) ∧
    (maxLength < text.length →
      ∃ groups : List (List String),
        jsSplit text '\n' = groups.flatten ∧
        (∀ g ∈ groups, g ≠ []) ∧
        (∀ g ∈ groups, GroupOK maxLength g) ∧
        chunkTextForSlack text maxLength = groups.filterMap (renderGroup maxLength)) := by
  by_cases hsmall : text.length ≤ maxLength
  · refine ⟨fun _ => ?_, ?_, fun hbig => absurd hsmall (Nat.not_le.mpr hbig)⟩
    · unfold chunkTextForSlack
      rw [if_pos hsmall]
    · intro c hc
      unfold chunkTextForSlack at hc
      rw [if_pos hsmall] at hc
      simp at hc
      subst hc
      exact le_trans hsmall (Nat.le_max_left _ _)
  · obtain ⟨groups, hflat, hgne, hgok, heq, hlen⟩ :=
      chunkLines_spec maxLength (jsSplit text '\n') [] [] "" rfl (by simp)
        (Nat.zero_le _)
    have hck : chunkTextForSlack text maxLength =
        groups.filterMap (renderGroup maxLength) := by
      unfold chunkTextForSlack
      rw [if_neg hsmall, heq]
      simp
    refine ⟨fun h => absurd h hsmall, ?_,
      fun _ => ⟨groups, by simpa using hflat, hgne, hgok, hck⟩⟩
    intro c hc
    rw [hck] at hc
    exact hlen c hc

/-- Witness for C1: the amended clauses at concrete texts, with the positivity
and size hypotheses discharged. -/
theorem c1_witness :
    chunkTextForSlack "ab" 5 = ["ab"] ∧
    (∀ c ∈ chunkTextForSlack "line one\nline two" 9, c.length ≤ max 9 3) ∧
    ∃ groups : List (List String),
      jsSplit "line one\nline two" '\n' = groups.flatten ∧
      (∀ g ∈ groups, g ≠ []) ∧
      (∀ g ∈ groups, GroupOK 9 g) ∧
      chunkTextForSlack "line one\nline two" 9 = groups.filterMap (renderGroup 9) :=
  ⟨(c1_chunking_amended "ab" 5 (by decide)).1 (by decide),
   (c1_chunking_amended "line one\nline two" 9 (by decide)).2.1,
   (c1_chunking_amended "line one\nline two" 9 (by decide)).2.2 (by decide)⟩
